import Mathlib

/-!
Shallow embedding of the resumable download orchestrator of
`crawl-law-data`: the progress ledger (`crawl/progress_tracker.py`), the
locked file downloader (`crawl/downloader.py`), the duplicate-format
reconciler (`crawl/downloader.py`), and the statistics aggregator
(`utils/common.py` together with the merge loop of `crawl/processor.py`).

Python strings become `String`, lists become `List`, dicts with fixed
fields become structures, association over arbitrary keys becomes
association lists, and filesystem state becomes an explicit record
threaded through the functions.  Wall-clock timestamps
(`datetime.now().isoformat()`) are passed in as explicit `String`
arguments.
-/

namespace CrawlLaw

/-! ### Progress ledger state (`ProgressTracker.progress`)

`self.progress` is the dict `{"processed": [...], "failed": [...]}` where
`processed` holds url strings and every element of `failed` is the dict
`{"url": ..., "error": ..., "timestamp": ...}`.  In the typed embedding
every element of `failed` is a `FailEntry`, so Python's
`isinstance(f, dict)` guard is identically true. -/

structure FailEntry where
  url : String
  error : String
  timestamp : String
deriving DecidableEq, Repr

structure Progress where
  processed : List String
  failed : List FailEntry
deriving DecidableEq, Repr

def Progress.empty : Progress := { processed := [], failed := [] }

/-- `ProgressTracker.mark_success` (progress_tracker.py:98-108), the pure
state update: guarded by `if url not in self.progress["processed"]`, it
appends the url to `processed` and filters out any failure entry with the
same url.  (The write-through `save_progress` call is modelled separately
by `save_progress` below.) -/
def mark_success (p : Progress) (url : String) : Progress :=
  if url ∈ p.processed then p
  else
    { processed := p.processed ++ [url],
      failed := p.failed.filter (fun f => f.url ≠ url) }

/-- `ProgressTracker.mark_failure` (progress_tracker.py:110-122): removes
any existing failure entry for the url, then appends a fresh entry with
the given error and timestamp.  The processed list is not touched. -/
def mark_failure (p : Progress) (url error timestamp : String) : Progress :=
  { processed := p.processed,
    failed := p.failed.filter (fun f => f.url ≠ url)
                ++ [{ url := url, error := error, timestamp := timestamp }] }

/-- `ProgressTracker.is_processed` (progress_tracker.py:124-126). -/
def is_processed (p : Progress) (url : String) : Bool :=
  url ∈ p.processed

/-- `ProgressTracker.get_failed_urls` (progress_tracker.py:128-130):
`[f["url"] for f in self.progress["failed"] if isinstance(f, dict)]`;
the isinstance guard is identically true in the typed state. -/
def get_failed_urls (p : Progress) : List String :=
  p.failed.map (fun f => f.url)

/-- `ProgressTracker.get_processed_urls` (progress_tracker.py:145-147). -/
def get_processed_urls (p : Progress) : List String :=
  p.processed

/-- `ProgressTracker.get_pending_urls` (progress_tracker.py:149-151):
`[url for url in self.progress["failed"]]` — the comprehension iterates
the failure *entries* themselves, so the returned list holds the entry
records, not url strings. -/
def get_pending_urls (p : Progress) : List FailEntry :=
  p.failed.map (fun f => f)

/-! Mutation events, for reasoning about states reachable from the empty
ledger by `mark_success` / `mark_failure` calls. -/

inductive Event where
  | success (url : String)
  | failure (url error timestamp : String)
deriving DecidableEq, Repr

def stepEvent (p : Progress) : Event → Progress
  | .success url => mark_success p url
  | .failure url error timestamp => mark_failure p url error timestamp

def runEvents (evs : List Event) : Progress :=
  evs.foldl stepEvent Progress.empty

def runEventsFrom (p : Progress) (evs : List Event) : Progress :=
  evs.foldl stepEvent p

/-! ### Ledger persistence (`save_progress` / `load_progress`)

The progress file is a CSV with header `url,status,error,timestamp`; the
csv module's encode/decode of individual fields is taken as faithful
transport, so a file parsed into rows is a `List Row`, and an
unparseable file (the `except Exception` path of `load_progress`) is the
constructor `corrupt`.  The filesystem state the tracker touches is the
progress file itself, the `<progress_file>.tmp` temp file, and the
`<progress_file>.<timestamp>.bak` backups (kept as a list, the
timestamped names abstracted away). -/

structure Row where
  url : String
  status : String
  error : String
  timestamp : String
deriving DecidableEq, Repr

inductive FileContent where
  | missing
  | corrupt
  | rows (rs : List Row)
deriving DecidableEq, Repr

structure FS where
  progressFile : FileContent
  tempFile : Option (List Row)
  backups : List FileContent
deriving DecidableEq, Repr

/-- The rows `save_progress` writes (progress_tracker.py:62-82): every
processed url as a `success` row with empty error and the current
timestamp, then every failure entry as a `failed` row with its recorded
error and timestamp. -/
def serializeProgress (p : Progress) (now : String) : List Row :=
  p.processed.map (fun url =>
      { url := url, status := "success", error := "", timestamp := now })
    ++ p.failed.map (fun fail =>
      { url := fail.url, status := "failed", error := fail.error,
        timestamp := fail.timestamp })

/-- `ProgressTracker.save_progress` (progress_tracker.py:52-96): write
the serialized rows to `<progress_file>.tmp`, then `os.replace` /
`os.rename` it over the progress file.  `failAt = none` is the
exception-free run; `failAt = some k` is an exception raised after `k`
rows have reached the temp file (any point before the rename
completes): the handler leaves the progress file untouched and unlinks
the temp file. -/
def save_progress (p : Progress) (now : String) (failAt : Option Nat)
    (fs : FS) : FS :=
  let rows := serializeProgress p now
  match failAt with
  | none =>
      -- temp file fully written, then atomically renamed over the real file
      { progressFile := FileContent.rows rows, tempFile := none,
        backups := fs.backups }
  | some k =>
      -- exception after k rows: temp held rows.take k, the handler unlinks it
      let _partial := rows.take k
      { progressFile := fs.progressFile, tempFile := none,
        backups := fs.backups }

/-- The row loop of `load_progress` (progress_tracker.py:27-37): a row
with status `success` appends its url to `processed`; any other row
becomes a failure entry with the row's url, error and timestamp. -/
def parseRows (rs : List Row) : Progress :=
  rs.foldl
    (fun p r =>
      if r.status = "success" then
        { p with processed := p.processed ++ [r.url] }
      else
        { p with
            failed := p.failed ++
              [{ url := r.url, error := r.error, timestamp := r.timestamp }] })
    Progress.empty

/-- `ProgressTracker.load_progress` (progress_tracker.py:17-50).  Missing
file: the in-memory state is left as it was.  Parseable file: the state
is rebuilt from the rows.  Unparseable file: the exception handler copies
the bad file to a timestamped backup, resets the state to empty, and
calls `save_progress` (which overwrites the progress file with the empty
ledger); it never re-raises. -/
def load_progress (fs : FS) (cur : Progress) (now : String) :
    FS × Progress :=
  match fs.progressFile with
  | FileContent.missing => (fs, cur)
  | FileContent.corrupt =>
      let fs1 : FS := { fs with backups := fs.backups ++ [FileContent.corrupt] }
      (save_progress Progress.empty now none fs1, Progress.empty)
  | FileContent.rows rs => (fs, parseRows rs)

/-! ### String helpers shared by downloader and reconciler

Python's `str.lower` is modelled on the ASCII range by `Char.toLower`;
`os.path.splitext` is the posixpath algorithm (separator `/`, the
extension starts at the last dot of the last component provided some
earlier character of that component is not a dot). -/

def strLower (s : String) : String :=
  String.mk (s.toList.map Char.toLower)

/-- `pat in s` (Python substring test). -/
def containsSub (s pat : String) : Bool :=
  decide (pat.toList <:+: s.toList)

/-- `s.endswith(pat)`. -/
def strEndsWith (s pat : String) : Bool :=
  pat.toList.isSuffixOf s.toList

def lastIndexOf (cs : List Char) (c : Char) : Option Nat :=
  match cs with
  | [] => none
  | x :: xs =>
      match lastIndexOf xs c with
      | some i => some (i + 1)
      | none => if x = c then some 0 else none

/-- `os.path.splitext` (posixpath): split at the last `.` that lies after
the last `/`, unless every character of the last component before that
dot is itself a dot (hidden files like `.bashrc` have no extension). -/
def py_splitext (p : String) : String × String :=
  let cs := p.toList
  let start : Nat :=
    match lastIndexOf cs '/' with
    | some s => s + 1
    | none => 0
  match lastIndexOf cs '.' with
  | none => (p, "")
  | some d =>
      if start ≤ d ∧ ((cs.drop start).take (d - start)).any (· != '.') then
        (String.mk (cs.take d), String.mk (cs.drop d))
      else (p, "")

/-! ### Locked file download (`downloader.py`)

The worker-visible filesystem is an association of paths to byte lists;
`download_file` threads it explicitly.  Environment effects the code
reacts to — lock-acquisition timeout and the outcome of `requests.get` —
are oracle inputs.  `format_document_name` (document_formatter.py) is
passed in as the function argument `fmt`, so every theorem below holds
for the real formatter in particular. -/

abbrev World := List (String × List Nat)

def World.lookupPath (w : World) (p : String) : Option (List Nat) :=
  (w.find? (fun e => e.1 == p)).map (fun e => e.2)

def World.pathExists (w : World) (p : String) : Bool :=
  (w.lookupPath p).isSome

/-- `open(path, "wb")` + write: truncate/create with the given bytes. -/
def World.write (w : World) (p : String) (v : List Nat) : World :=
  w.filter (fun e => e.1 != p) ++ [(p, v)]

def World.unlink (w : World) (p : String) : World :=
  w.filter (fun e => e.1 != p)

/-- Outcome of `requests.get(url)`: a response with a status code and a
body, or a raised exception with message `msg`. -/
inductive FetchResult where
  | resp (status : Nat) (body : List Nat)
  | exn (msg : String)
deriving DecidableEq, Repr

structure DlEnv where
  lockTimeout : Bool
  fetch : FetchResult
deriving DecidableEq, Repr

/-- Extension resolution of `download_file` (downloader.py:37-40):
`ext = os.path.splitext(url)[1].lower()`, defaulting to `.pdf` when the
url has no extension but mentions `.pdf`, else `.doc`. -/
def extOf (url : String) : String :=
  let ext := strLower (py_splitext url).2
  if ext = "" then
    if containsSub (strLower url) ".pdf" then ".pdf" else ".doc"
  else ext

def finalNameOf (fmt : String → String) (url filename : String) : String :=
  fmt filename ++ extOf url

/-- `filepath = os.path.join(folder, final_filename)`. -/
def filePathOf (fmt : String → String) (url filename folder : String) : String :=
  folder ++ "/" ++ finalNameOf fmt url filename

/-- `lock_file = os.path.join(folder, f"{final_filename}.lock")`. -/
def lockFileOf (fmt : String → String) (url filename folder : String) : String :=
  folder ++ "/" ++ (finalNameOf fmt url filename ++ ".lock")

/-- `_do_download` (downloader.py:80-103): status 200 streams the body to
`filepath` and returns `(True, None)`; any other status returns
`(False, "HTTP <status>")` without writing; a raised exception is caught
and returned as `(False, str(e))`. -/
def do_download (filepath : String) (fetch : FetchResult) (w : World) :
    (Bool × Option String) × World :=
  match fetch with
  | FetchResult.resp status body =>
      if status = 200 then ((true, none), w.write filepath body)
      else ((false, some ("HTTP " ++ toString status)), w)
  | FetchResult.exn msg => ((false, some msg), w)

/-- `download_file` (downloader.py:35-77).  Retry mode skips locking and
goes straight to `_do_download`; otherwise `portalocker.Lock` creates the
lock file, a timeout is caught as `(False, "File locked by another
process")`, a destination existing after acquisition short-circuits to
`(True, None)`, and otherwise `_do_download` runs.  On every path the
`finally` block unlinks the lock file. -/
def download_file (fmt : String → String) (url filename folder : String)
    (retry_mode : Bool) (env : DlEnv) (w : World) :
    (Bool × Option String) × World :=
  let lockFile := lockFileOf fmt url filename folder
  let filepath := filePathOf fmt url filename folder
  if retry_mode then
    let r := do_download filepath env.fetch w
    (r.1, r.2.unlink lockFile)
  else
    let w1 := if w.pathExists lockFile then w else w.write lockFile []
    if env.lockTimeout then
      ((false, some "File locked by another process"), w1.unlink lockFile)
    else if w1.pathExists filepath then
      ((true, none), w1.unlink lockFile)
    else
      let r := do_download filepath env.fetch w1
      (r.1, r.2.unlink lockFile)

/-! ### Duplicate-format reconciler (`remove_duplicate_documents`,
downloader.py:149-219)

The walked output tree is a list of entries (directory, filename, byte
size); `os.walk` order is the list order and full paths are
`dir ++ "/" ++ name`.  Grouping mirrors the `document_groups` dict: an
association list in key insertion order, each group holding doc-variant
and pdf-variant full paths in walk order. -/

structure FileEnt where
  dir : String
  name : String
  size : Nat
deriving DecidableEq, Repr

def fullPath (e : FileEnt) : String :=
  e.dir ++ "/" ++ e.name

/-- `filename.lower().endswith((".pdf", ".doc", ".docx"))`. -/
def isRelevantName (name : String) : Bool :=
  let low := strLower name
  strEndsWith low ".pdf" || strEndsWith low ".doc" || strEndsWith low ".docx"

/-- `get_base_name` (downloader.py:155-160): strip the extension, then
`re.sub(r"_?\d{6}$", "", base)` — when the last six characters are
digits they are removed together with one immediately preceding
underscore if present. -/
def get_base_name (filename : String) : String :=
  let base := (py_splitext filename).1
  let cs := base.toList
  let n := cs.length
  if 6 ≤ n ∧ ((cs.drop (n - 6)).all Char.isDigit) then
    let kept := cs.take (n - 6)
    let kept := if kept.getLast? = some '_' then kept.dropLast else kept
    String.mk kept
  else base

inductive DocClass where
  | doc
  | pdf
  | neither
deriving DecidableEq, Repr

/-- Variant classification (downloader.py:173,178-181):
`ext = os.path.splitext(filename)[1].lower()`, doc-variants are `.doc`
and `.docx`, pdf-variants are `.pdf`; any other extension joins the
group but lands in neither list. -/
def classOf (name : String) : DocClass :=
  let ext := strLower (py_splitext name).2
  if ext = ".doc" ∨ ext = ".docx" then DocClass.doc
  else if ext = ".pdf" then DocClass.pdf
  else DocClass.neither

structure DocGroup where
  key : String
  docs : List String
  pdfs : List String
deriving DecidableEq, Repr

/-- One iteration of the grouping loop of `get_document_groups`
(downloader.py:166-181): skip irrelevant names, create the group on
first sight of a base key, then append the full path to the doc or pdf
list of that group. -/
def addFile (gs : List DocGroup) (e : FileEnt) : List DocGroup :=
  if isRelevantName e.name then
    let key := get_base_name e.name
    let gs1 :=
      if gs.any (fun g => g.key == key) then gs
      else gs ++ [{ key := key, docs := [], pdfs := [] }]
    gs1.map (fun g =>
      if g.key == key then
        match classOf e.name with
        | DocClass.doc => { g with docs := g.docs ++ [fullPath e] }
        | DocClass.pdf => { g with pdfs := g.pdfs ++ [fullPath e] }
        | DocClass.neither => g
      else g)
  else gs

def get_document_groups (tree : List FileEnt) : List DocGroup :=
  tree.foldl addFile []

/-- `os.path.getsize(path)` over the modelled tree. -/
def sizeOfPath (tree : List FileEnt) (path : String) : Nat :=
  match tree.find? (fun e => fullPath e == path) with
  | some e => e.size
  | none => 0

/-- The deletion loop (downloader.py:189-204): for every group holding
both a doc variant and a pdf variant, every pdf path of the group is
removed, in group order. -/
def removedPaths (tree : List FileEnt) : List String :=
  (get_document_groups tree).foldl
    (fun acc g => if g.docs ≠ [] ∧ g.pdfs ≠ [] then acc ++ g.pdfs else acc) []

/-- `remove_duplicate_documents` (downloader.py:149-219): returns
`(duplicates_found, space_saved)` — the count of removed pdf files and
the sum of their sizes — together with the tree left behind by the
`os.remove` calls. -/
def remove_duplicate_documents (tree : List FileEnt) :
    Nat × Nat × List FileEnt :=
  let rem := removedPaths tree
  (rem.length, (rem.map (sizeOfPath tree)).sum,
   tree.filter (fun e => !(rem.contains (fullPath e))))

/-! ### Statistics aggregation (`DownloadStats`, utils/common.py:126-159,
and the chunk-merge loop of `process_excel_file`, processor.py:452-466)

`success_count` is the `defaultdict(int)` as an association list in key
insertion order. -/

structure DownloadStats where
  success_count : List (String × Nat)
  total_files : Nat
  successful : List (String × String)
  failed : List (String × String)
deriving DecidableEq, Repr

def DownloadStats.init : DownloadStats :=
  { success_count := [], total_files := 0, successful := [], failed := [] }

def getCount (sc : List (String × Nat)) (k : String) : Nat :=
  match sc.find? (fun e => e.1 == k) with
  | some e => e.2
  | none => 0

def bumpCount (sc : List (String × Nat)) (k : String) : List (String × Nat) :=
  if sc.any (fun e => e.1 == k) then
    sc.map (fun e => if e.1 == k then (e.1, e.2 + 1) else e)
  else sc ++ [(k, 1)]

/-- `DownloadStats.add_success` (common.py:133-136). -/
def DownloadStats.add_success (s : DownloadStats) (file_type : String) :
    DownloadStats :=
  { s with success_count := bumpCount s.success_count file_type,
           total_files := s.total_files + 1 }

/-- `DownloadStats.add_failure` (common.py:138-140). -/
def DownloadStats.add_failure (s : DownloadStats) (url error : String) :
    DownloadStats :=
  { s with failed := s.failed ++ [(url, error)] }

/-- The dict returned by `DownloadStats.get_summary` (common.py:151-159),
keys in insertion order doc, pdf, total, successful, failed. -/
structure Summary where
  doc : Nat
  pdf : Nat
  total : Nat
  successful : List (String × String)
  failed : List (String × String)
deriving DecidableEq, Repr

def DownloadStats.get_summary (s : DownloadStats) : Summary :=
  { doc := getCount s.success_count ".doc" + getCount s.success_count ".docx",
    pdf := getCount s.success_count ".pdf",
    total := s.total_files,
    successful := s.successful,
    failed := s.failed }

/-- The per-chunk merge of `process_excel_file` (processor.py:458-462):
`for ext, count in stat.items(): if ext != "total": stats.add_success(ext)`
— one `add_success` per key of the summary dict other than `"total"`
(the bound `count` is unused), iterating the keys in insertion order
doc, pdf, total, successful, failed; a `None` chunk entry is skipped by
the `if stat` guard. -/
def merge_chunk_summary (stats : DownloadStats) (stat : Option Summary) :
    DownloadStats :=
  match stat with
  | none => stats
  | some _ =>
      (((stats.add_success "doc").add_success "pdf").add_success
          "successful").add_success "failed"

def merge_summaries (stats : DownloadStats)
    (downloads : List (Option Summary)) : DownloadStats :=
  downloads.foldl merge_chunk_summary stats

/-! ### Proof-side accessors and characterizations

These are not translations of repository code; they name the result
values and selection predicates the theorems below talk about. -/

/-- The result pair `_do_download` maps each fetch outcome to. -/
def fetchOutcome : FetchResult → Bool × Option String
  | FetchResult.resp status _ =>
      if status = 200 then (true, none)
      else (false, some ("HTTP " ++ toString status))
  | FetchResult.exn msg => (false, some msg)

def containsKey (gs : List DocGroup) (k : String) : Bool :=
  gs.any (fun g => g.key == k)

/-- doc list of the first group carrying the key. -/
def groupDocs : List DocGroup → String → List String
  | [], _ => []
  | g :: gs, k => if g.key = k then g.docs else groupDocs gs k

def groupPdfs : List DocGroup → String → List String
  | [], _ => []
  | g :: gs, k => if g.key = k then g.pdfs else groupPdfs gs k

/-- Pointwise form of the in-place dict mutation of the grouping loop:
apply `du` to the doc list and `pu` to the pdf list of the groups
carrying `key`. -/
def upd (key : String) (du pu : List String → List String)
    (g : DocGroup) : DocGroup :=
  if g.key = key then { key := g.key, docs := du g.docs, pdfs := pu g.pdfs }
  else g

def duOf (e : FileEnt) : List String → List String :=
  match classOf e.name with
  | DocClass.doc => (· ++ [fullPath e])
  | _ => id

def puOf (e : FileEnt) : List String → List String :=
  match classOf e.name with
  | DocClass.pdf => (· ++ [fullPath e])
  | _ => id

def isDocAt (k : String) (e : FileEnt) : Bool :=
  isRelevantName e.name && (classOf e.name == DocClass.doc)
    && (get_base_name e.name == k)

def isPdfAt (k : String) (e : FileEnt) : Bool :=
  isRelevantName e.name && (classOf e.name == DocClass.pdf)
    && (get_base_name e.name == k)

def docPathsOf (tree : List FileEnt) (k : String) : List String :=
  (tree.filter (isDocAt k)).map fullPath

def pdfPathsOf (tree : List FileEnt) (k : String) : List String :=
  (tree.filter (isPdfAt k)).map fullPath

/-- Some doc/docx variant in the tree shares the entry's base key. -/
def hasDocSibling (tree : List FileEnt) (e : FileEnt) : Bool :=
  tree.any (fun d => isRelevantName d.name
    && (classOf d.name == DocClass.doc)
    && (get_base_name d.name == get_base_name e.name))

/-- The entries the reconciler deletes: pdf variants whose base key also
has a doc/docx variant somewhere in the tree. -/
def deleteB (tree : List FileEnt) (e : FileEnt) : Bool :=
  isRelevantName e.name && (classOf e.name == DocClass.pdf)
    && hasDocSibling tree e

/-- Concrete tree from the spec scenario: a docx/pdf pair sharing one
base key, and a lone pdf. -/
def sampleTree : List FileEnt :=
  [{ dir := "downloads", name := "doc_a_000123.docx", size := 10 },
   { dir := "downloads", name := "doc_a_000123.pdf", size := 7 },
   { dir := "downloads", name := "lone_000999.pdf", size := 5 }]

/-! ## Theorems -/

/-! ### C1 — atomic save -/

/-- C1: `save_progress` serializes the complete ledger state — every
processed url as a success row and every failure entry as a failed row —
into the temp file and installs it over the real progress file in one
rename; when an exception strikes at any point of the save, the
previously committed progress file is untouched and the temp file is
unlinked, so the persisted ledger is never partially written. -/
theorem c1_save_progress_atomic (p : Progress) (now : String)
    (failAt : Option Nat) (fs : FS) :
    (save_progress p now failAt fs).tempFile = none
    ∧ (failAt = none →
        (save_progress p now failAt fs).progressFile
          = FileContent.rows (serializeProgress p now))
    ∧ (∀ u ∈ p.processed,
        ({ url := u, status := "success", error := "", timestamp := now } : Row)
          ∈ serializeProgress p now)
    ∧ (∀ f ∈ p.failed,
        ({ url := f.url, status := "failed", error := f.error,
           timestamp := f.timestamp } : Row) ∈ serializeProgress p now)
    ∧ (∀ k, failAt = some k →
        (save_progress p now failAt fs).progressFile = fs.progressFile) := by
  refine ⟨?_, ?_, ?_, ?_, ?_⟩
  · cases failAt <;> rfl
  · intro h; subst h; rfl
  · intro u hu
    exact List.mem_append.mpr (Or.inl (List.mem_map_of_mem _ hu))
  · intro f hf
    exact List.mem_append.mpr (Or.inr (List.mem_map_of_mem _ hf))
  · intro k hk; subst hk; rfl

/-- C1 witness: a concrete save that fails after one row leaves the
committed file alone, removes the temp file, and the serialized rows
cover the state. -/
theorem c1_save_progress_atomic_witness :
    (save_progress { processed := ["u"], failed := [⟨"v", "e", "t"⟩] } "T"
        (some 1)
        { progressFile := FileContent.rows [⟨"w", "success", "", "t0"⟩],
          tempFile := none, backups := [] }).tempFile = none
    ∧ (save_progress { processed := ["u"], failed := [⟨"v", "e", "t"⟩] } "T"
        (some 1)
        { progressFile := FileContent.rows [⟨"w", "success", "", "t0"⟩],
          tempFile := none, backups := [] }).progressFile
        = FileContent.rows [⟨"w", "success", "", "t0"⟩]
    ∧ ({ url := "u", status := "success", error := "", timestamp := "T" } : Row)
        ∈ serializeProgress { processed := ["u"], failed := [⟨"v", "e", "t"⟩] } "T" :=
  ⟨(c1_save_progress_atomic
      { processed := ["u"], failed := [⟨"v", "e", "t"⟩] } "T" (some 1)
      { progressFile := FileContent.rows [⟨"w", "success", "", "t0"⟩],
        tempFile := none, backups := [] }).1,
   (c1_save_progress_atomic
      { processed := ["u"], failed := [⟨"v", "e", "t"⟩] } "T" (some 1)
      { progressFile := FileContent.rows [⟨"w", "success", "", "t0"⟩],
        tempFile := none, backups := [] }).2.2.2.2 1 rfl,
   (c1_save_progress_atomic
      { processed := ["u"], failed := [⟨"v", "e", "t"⟩] } "T" (some 1)
      { progressFile := FileContent.rows [⟨"w", "success", "", "t0"⟩],
        tempFile := none, backups := [] }).2.2.1 "u" (by decide)⟩

/-! ### C4 — corruption recovery on load -/

/-- C4: on an unparseable progress file, `load_progress` does not raise:
it records a backup of the corrupt file, resets the in-memory ledger to
the empty state, and rewrites the progress file as the empty ledger, so
the caller never observes the corruption. -/
theorem c4_load_progress_corruption_recovery (fs : FS) (cur : Progress)
    (now : String) (h : fs.progressFile = FileContent.corrupt) :
    (load_progress fs cur now).2 = Progress.empty
    ∧ (load_progress fs cur now).1.backups = fs.backups ++ [FileContent.corrupt]
    ∧ (load_progress fs cur now).1.progressFile
        = FileContent.rows (serializeProgress Progress.empty now)
    ∧ (load_progress fs cur now).1.tempFile = none := by
  obtain ⟨pf, tf, bk⟩ := fs
  simp only at h
  subst h
  exact ⟨rfl, rfl, rfl, rfl⟩

/-- C4 witness: recovery on a concrete corrupt file. -/
theorem c4_load_progress_corruption_recovery_witness :
    (load_progress
        { progressFile := FileContent.corrupt, tempFile := some [],
          backups := [] }
        { processed := ["x"], failed := [] } "T").2 = Progress.empty
    ∧ (load_progress
        { progressFile := FileContent.corrupt, tempFile := some [],
          backups := [] }
        { processed := ["x"], failed := [] } "T").1.backups
        = [] ++ [FileContent.corrupt] :=
  ⟨(c4_load_progress_corruption_recovery _ _ "T" rfl).1,
   (c4_load_progress_corruption_recovery _ _ "T" rfl).2.1⟩

/-! ### C10 — round-trip persistence -/

theorem parseRows_succ_block (urls : List String) (now : String)
    (acc : Progress) :
    (urls.map (fun url =>
        ({ url := url, status := "success", error := "", timestamp := now } : Row))).foldl
      (fun p r =>
        if r.status = "success" then
          { p with processed := p.processed ++ [r.url] }
        else
          { p with
              failed := p.failed ++
                [{ url := r.url, error := r.error, timestamp := r.timestamp }] })
      acc
      = { acc with processed := acc.processed ++ urls } := by
  induction urls generalizing acc with
  | nil => simp
  | cons u us ih =>
      simp only [List.map_cons, List.foldl_cons, if_pos rfl]
      rw [ih]
      simp

theorem parseRows_fail_block (fails : List FailEntry) (acc : Progress) :
    (fails.map (fun fail =>
        ({ url := fail.url, status := "failed", error := fail.error,
           timestamp := fail.timestamp } : Row))).foldl
      (fun p r =>
        if r.status = "success" then
          { p with processed := p.processed ++ [r.url] }
        else
          { p with
              failed := p.failed ++
                [{ url := r.url, error := r.error, timestamp := r.timestamp }] })
      acc
      = { acc with failed := acc.failed ++ fails } := by
  induction fails generalizing acc with
  | nil => simp
  | cons f fsl ih =>
      simp only [List.map_cons, List.foldl_cons]
      rw [if_neg (by decide)]
      rw [ih]
      simp

theorem parseRows_serializeProgress (p : Progress) (now : String) :
    parseRows (serializeProgress p now) = p := by
  unfold parseRows serializeProgress
  rw [List.foldl_append, parseRows_succ_block, parseRows_fail_block]
  simp [Progress.empty]

/-- C10: persisting a ledger with `save_progress` and reloading it with
`load_progress` reconstructs an equal in-memory state: the same
processed url list and the same failure entries (url, error, timestamp).
No outcome information is lost by the round trip. -/
theorem c10_save_load_round_trip (p : Progress) (now now2 : String)
    (fs : FS) (cur : Progress) :
    (load_progress (save_progress p now none fs) cur now2).2 = p := by
  show parseRows (serializeProgress p now) = p
  exact parseRows_serializeProgress p now

/-! ### C2 — one current status per url -/

/-- C2 counterexample: `mark_success "u"` followed by `mark_failure "u"`
leaves `"u"` simultaneously in the processed list and in the failed
list, because `mark_failure` never evicts a url from the processed list
— refuting the claimed invariant. -/
theorem c2_counterexample_success_then_failure :
    "u" ∈ (runEvents [Event.success "u",
        Event.failure "u" "e" "t"]).processed
    ∧ "u" ∈ ((runEvents [Event.success "u",
        Event.failure "u" "e" "t"]).failed.map FailEntry.url) := by
  decide

theorem failed_urls_nodup_step (p : Progress) (ev : Event)
    (h : (p.failed.map FailEntry.url).Nodup) :
    ((stepEvent p ev).failed.map FailEntry.url).Nodup := by
  cases ev with
  | success url =>
      simp only [stepEvent, mark_success]
      by_cases hm : url ∈ p.processed
      · simpa [hm] using h
      · simp only [if_neg hm]
        exact ((List.filter_sublist _).map _).nodup h
  | failure url error timestamp =>
      simp only [stepEvent, mark_failure, List.map_append]
      rw [List.nodup_append]
      refine ⟨((List.filter_sublist _).map _).nodup h, List.nodup_singleton _, ?_⟩
      intro a ha hb
      simp only [List.map_map, List.mem_map, Function.comp] at ha
      obtain ⟨f, hf, rfl⟩ := ha
      have := (List.mem_filter.mp hf).2
      have hb' : f.url = url := by simpa using hb
      exact (of_decide_eq_true this) hb'

theorem failed_urls_nodup_run (evs : List Event) (p : Progress)
    (h : (p.failed.map FailEntry.url).Nodup) :
    ((runEventsFrom p evs).failed.map FailEntry.url).Nodup := by
  induction evs generalizing p with
  | nil => exact h
  | cons ev rest ih =>
      exact ih (stepEvent p ev) (failed_urls_nodup_step p ev h)

/-- C2 amended: a success for a url *not yet processed* evicts any
failure entry for it; a failure evicts only the previous failure entry
for that url and leaves the processed list untouched, so a url that
succeeded and later failed carries both statuses at once.  What does
hold at every point of a run from the empty ledger: each url has at
most one failure entry. -/
theorem c2_amended_status_eviction :
    (∀ (p : Progress) (url : String), url ∉ p.processed →
        url ∈ (mark_success p url).processed
        ∧ ∀ f ∈ (mark_success p url).failed, f.url ≠ url)
    ∧ (∀ (p : Progress) (url error timestamp : String),
        (mark_failure p url error timestamp).processed = p.processed)
    ∧ (∀ evs : List Event,
        ((runEvents evs).failed.map FailEntry.url).Nodup) := by
  refine ⟨?_, fun p url error timestamp => rfl, ?_⟩
  · intro p url hm
    simp only [mark_success, if_neg hm]
    refine ⟨List.mem_append.mpr (Or.inr (List.mem_singleton.mpr rfl)), ?_⟩
    intro f hf
    exact of_decide_eq_true (List.mem_filter.mp hf).2
  · intro evs
    exact failed_urls_nodup_run evs Progress.empty (by decide)

/-- C2 amended witness: the eviction clause applied at a concrete
not-yet-processed url. -/
theorem c2_amended_status_eviction_witness :
    ("u" ∉ (Progress.mk [] [⟨"u", "e", "t"⟩]).processed)
    ∧ ("u" ∈ (mark_success (Progress.mk [] [⟨"u", "e", "t"⟩]) "u").processed
       ∧ ∀ f ∈ (mark_success (Progress.mk [] [⟨"u", "e", "t"⟩]) "u").failed,
           f.url ≠ "u") :=
  ⟨by decide,
   c2_amended_status_eviction.1 (Progress.mk [] [⟨"u", "e", "t"⟩]) "u"
     (by decide)⟩

/-! ### C3 — mark_success postcondition and idempotence -/

/-- C3 counterexample: in the reachable state where `"u"` is both
processed and failed (success then failure), a further
`mark_success "u"` is a no-op because of the `url not in processed`
guard, so the failure entry for `"u"` remains — refuting "after
calling mark_success(url) ... no failure entry for that URL remains"
for arbitrary ledger states. -/
theorem c3_counterexample_stale_failure_survives :
    ((mark_success (runEvents [Event.success "u",
        Event.failure "u" "e" "t"]) "u").failed.map FailEntry.url) = ["u"]
    ∧ "u" ∈ (mark_success (runEvents [Event.success "u",
        Event.failure "u" "e" "t"]) "u").processed := by
  decide

theorem mark_success_mem (p : Progress) (url : String) :
    url ∈ (mark_success p url).processed := by
  unfold mark_success
  by_cases hm : url ∈ p.processed
  · simp [hm]
  · simp [hm]

theorem mark_success_of_processed (p : Progress) (url : String)
    (h : url ∈ p.processed) : mark_success p url = p := by
  simp [mark_success, h]

theorem processed_preserved_step (p : Progress) (url : String) (ev : Event)
    (h : url ∈ p.processed) : url ∈ (stepEvent p ev).processed := by
  cases ev with
  | success u2 =>
      simp only [stepEvent, mark_success]
      by_cases hm : u2 ∈ p.processed
      · simpa [hm]
      · simp only [if_neg hm]
        exact List.mem_append.mpr (Or.inl h)
  | failure u2 e2 t2 => exact h

theorem processed_preserved_run (evs : List Event) (p : Progress)
    (url : String) (h : url ∈ p.processed) :
    url ∈ (runEventsFrom p evs).processed := by
  induction evs generalizing p with
  | nil => exact h
  | cons ev rest ih =>
      exact ih (stepEvent p ev) (processed_preserved_step p url ev h)

/-- C3 amended: after `mark_success url` the url is processed, and when
the url was not already processed no failure entry for it remains; a
repeated `mark_success url` is a no-op — even after arbitrary
intervening `mark_success`/`mark_failure` calls — because nothing ever
removes a url from the processed list.  When the url was already
processed, however, `mark_success` is a complete no-op and a stale
failure entry for it survives. -/
theorem c3_amended_mark_success :
    (∀ (p : Progress) (url : String), url ∈ (mark_success p url).processed)
    ∧ (∀ (p : Progress) (url : String), url ∉ p.processed →
        ∀ f ∈ (mark_success p url).failed, f.url ≠ url)
    ∧ (∀ (p : Progress) (url : String) (evs : List Event),
        mark_success (runEventsFrom (mark_success p url) evs) url
          = runEventsFrom (mark_success p url) evs) := by
  refine ⟨mark_success_mem, ?_, ?_⟩
  · intro p url hm f hf
    simp only [mark_success, if_neg hm] at hf
    exact of_decide_eq_true (List.mem_filter.mp hf).2
  · intro p url evs
    exact mark_success_of_processed _ url
      (processed_preserved_run evs _ url (mark_success_mem p url))

/-- C3 amended witness: concrete eviction on a fresh url and
idempotence across an intervening failure of another url. -/
theorem c3_amended_mark_success_witness :
    "u" ∈ (mark_success (Progress.mk [] []) "u").processed
    ∧ ("u" ∉ (Progress.mk [] [⟨"u", "e", "t"⟩]).processed
       ∧ ∀ f ∈ (mark_success (Progress.mk [] [⟨"u", "e", "t"⟩]) "u").failed,
           f.url ≠ "u")
    ∧ mark_success
        (runEventsFrom (mark_success (Progress.mk [] []) "u")
          [Event.failure "v" "e" "t"]) "u"
        = runEventsFrom (mark_success (Progress.mk [] []) "u")
            [Event.failure "v" "e" "t"] :=
  ⟨c3_amended_mark_success.1 (Progress.mk [] []) "u",
   ⟨by decide,
    c3_amended_mark_success.2.1 (Progress.mk [] [⟨"u", "e", "t"⟩]) "u"
      (by decide)⟩,
   c3_amended_mark_success.2.2 (Progress.mk [] []) "u"
     [Event.failure "v" "e" "t"]⟩

/-! ### World lemmas for the downloader claims -/

theorem find_key_filter_ne (w : World) (p q : String) (h : p ≠ q) :
    (w.filter (fun e => e.1 != q)).find? (fun e => e.1 == p)
      = w.find? (fun e => e.1 == p) := by
  induction w with
  | nil => rfl
  | cons e t ih =>
      by_cases hq : e.1 = q
      · have h1 : (e.1 != q) = false := by simp [hq]
        have h2 : (e.1 == p) = false := by
          refine beq_eq_false_iff_ne.mpr ?_
          rw [hq]
          exact fun hh => h hh.symm
        simp only [List.filter_cons, h1, Bool.false_eq_true, if_false,
          List.find?_cons, h2, ih]
      · have h1 : (e.1 != q) = true := by simp [hq]
        simp only [List.filter_cons, h1, if_true, List.find?_cons]
        cases hp : (e.1 == p) with
        | true => rfl
        | false => exact ih

theorem lookupPath_write_ne (w : World) (p q : String) (v : List Nat)
    (h : p ≠ q) : (w.write q v).lookupPath p = w.lookupPath p := by
  unfold World.write World.lookupPath
  rw [List.find?_append, find_key_filter_ne w p q h]
  have hnone : List.find? (fun e => e.1 == p) [(q, v)] = none := by
    have : ((q, v).1 == p) = false := by
      refine beq_eq_false_iff_ne.mpr ?_
      exact fun hh => h hh.symm
    simp [List.find?_cons, this]
  rw [hnone]
  cases w.find? (fun e => e.1 == p) <;> rfl

theorem lookupPath_unlink_ne (w : World) (p q : String) (h : p ≠ q) :
    (w.unlink q).lookupPath p = w.lookupPath p := by
  unfold World.unlink World.lookupPath
  rw [find_key_filter_ne w p q h]

theorem pathExists_write_ne (w : World) (p q : String) (v : List Nat)
    (h : p ≠ q) : (w.write q v).pathExists p = w.pathExists p := by
  unfold World.pathExists
  rw [lookupPath_write_ne w p q v h]

theorem filePath_ne_lockFile (fmt : String → String)
    (url filename folder : String) :
    filePathOf fmt url filename folder ≠ lockFileOf fmt url filename folder := by
  unfold filePathOf lockFileOf
  intro h
  have hlen := congrArg String.length h
  have h5 : (".lock" : String).length = 5 := by decide
  simp only [String.length_append, h5] at hlen
  omega

/-! ### C5 — existence short-circuit after lock acquisition -/

/-- C5: with `retry_mode` false and no lock timeout, when the
destination file exists at the moment the path lock is held,
`download_file` returns `(True, None)` without fetching or writing:
every path except the transient lock file — in particular the
destination — has unchanged contents afterwards. -/
theorem c5_existing_destination_short_circuit
    (fmt : String → String) (url filename folder : String)
    (env : DlEnv) (w : World)
    (hT : env.lockTimeout = false)
    (hE : w.pathExists (filePathOf fmt url filename folder) = true) :
    (download_file fmt url filename folder false env w).1 = (true, none)
    ∧ (∀ q : String, q ≠ lockFileOf fmt url filename folder →
        (download_file fmt url filename folder false env w).2.lookupPath q
          = w.lookupPath q)
    ∧ (download_file fmt url filename folder false env w).2.lookupPath
          (filePathOf fmt url filename folder)
        = w.lookupPath (filePathOf fmt url filename folder) := by
  have hne := filePath_ne_lockFile fmt url filename folder
  by_cases hL : w.pathExists (lockFileOf fmt url filename folder) = true
  · have hdf : download_file fmt url filename folder false env w
        = ((true, none),
           w.unlink (lockFileOf fmt url filename folder)) := by
      unfold download_file
      simp only [Bool.false_eq_true, if_false, hL, if_true, hT, hE]
    refine ⟨by rw [hdf], ?_, ?_⟩
    · intro q hq
      rw [hdf]
      exact lookupPath_unlink_ne w q _ hq
    · rw [hdf]
      exact lookupPath_unlink_ne w _ _ hne
  · have hE1 : (w.write (lockFileOf fmt url filename folder) []).pathExists
        (filePathOf fmt url filename folder) = true := by
      rw [pathExists_write_ne w _ _ [] hne]
      exact hE
    have hdf : download_file fmt url filename folder false env w
        = ((true, none),
           (w.write (lockFileOf fmt url filename folder) []).unlink
             (lockFileOf fmt url filename folder)) := by
      unfold download_file
      simp only [Bool.false_eq_true, if_false, hL, if_true, hT, hE1]
    refine ⟨by rw [hdf], ?_, ?_⟩
    · intro q hq
      rw [hdf, lookupPath_unlink_ne _ q _ hq, lookupPath_write_ne w q _ [] hq]
    · rw [hdf, lookupPath_unlink_ne _ _ _ hne, lookupPath_write_ne w _ _ [] hne]

/-- C5 witness: a concrete world already holding the destination file
`d/f.doc` (url without extension and without `.pdf`, so the resolved
extension is `.doc`). -/
theorem c5_existing_destination_short_circuit_witness :
    (DlEnv.mk false (FetchResult.exn "never fetched")).lockTimeout = false
    ∧ World.pathExists [("d/f.doc", [7])]
        (filePathOf (fun s => s) "u" "f" "d") = true
    ∧ (download_file (fun s => s) "u" "f" "d" false
        (DlEnv.mk false (FetchResult.exn "never fetched"))
        [("d/f.doc", [7])]).1 = (true, none)
    ∧ (download_file (fun s => s) "u" "f" "d" false
        (DlEnv.mk false (FetchResult.exn "never fetched"))
        [("d/f.doc", [7])]).2.lookupPath (filePathOf (fun s => s) "u" "f" "d")
        = World.lookupPath [("d/f.doc", [7])]
            (filePathOf (fun s => s) "u" "f" "d") :=
  ⟨rfl, by decide,
   (c5_existing_destination_short_circuit (fun s => s) "u" "f" "d"
      (DlEnv.mk false (FetchResult.exn "never fetched"))
      [("d/f.doc", [7])] rfl (by decide)).1,
   (c5_existing_destination_short_circuit (fun s => s) "u" "f" "d"
      (DlEnv.mk false (FetchResult.exn "never fetched"))
      [("d/f.doc", [7])] rfl (by decide)).2.2⟩

/-! ### C6 — failure taxonomy of download_file -/

theorem do_download_fst (filepath : String) (fetch : FetchResult)
    (w : World) : (do_download filepath fetch w).1 = fetchOutcome fetch := by
  cases fetch with
  | resp status body =>
      by_cases h : status = 200 <;> simp [do_download, fetchOutcome, h]
  | exn msg => rfl

theorem download_file_fetch_path (fmt : String → String)
    (url filename folder : String) (rm : Bool) (env : DlEnv) (w : World)
    (h : rm = true ∨ (env.lockTimeout = false
        ∧ w.pathExists (filePathOf fmt url filename folder) = false)) :
    (download_file fmt url filename folder rm env w).1
      = fetchOutcome env.fetch := by
  rcases h with h | ⟨hT, hE⟩
  · subst h
    show (do_download (filePathOf fmt url filename folder) env.fetch w).1 = _
    exact do_download_fst _ env.fetch w
  · cases rm with
    | true =>
        show (do_download (filePathOf fmt url filename folder) env.fetch w).1 = _
        exact do_download_fst _ env.fetch w
    | false =>
        have hne := filePath_ne_lockFile fmt url filename folder
        by_cases hL : w.pathExists (lockFileOf fmt url filename folder) = true
        · have hdf : (download_file fmt url filename folder false env w).1
              = (do_download (filePathOf fmt url filename folder)
                  env.fetch w).1 := by
            unfold download_file
            simp only [Bool.false_eq_true, if_false, hL, if_true, hT, hE]
          rw [hdf]
          exact do_download_fst _ env.fetch w
        · have hE1 : (w.write (lockFileOf fmt url filename folder)
              []).pathExists (filePathOf fmt url filename folder) = false := by
            rw [pathExists_write_ne w _ _ [] hne]
            exact hE
          have hdf : (download_file fmt url filename folder false env w).1
              = (do_download (filePathOf fmt url filename folder) env.fetch
                  (w.write (lockFileOf fmt url filename folder) [])).1 := by
            unfold download_file
            simp only [Bool.false_eq_true, if_false, hL, if_true, hT, hE1]
          rw [hdf]
          exact do_download_fst _ env.fetch _

/-- C6: `download_file` distinguishes its failure modes.  A lock
timeout in non-retry mode returns `(False, "File locked by another
process")`.  Whenever the fetch is actually performed — retry mode, or
lock acquired with the destination absent — a 200 response returns
`(True, None)`, a non-200 response returns `(False, "HTTP <status>")`,
and a raised exception is caught and returned as `(False, str(e))`
instead of propagating. -/
theorem c6_download_file_failure_taxonomy (fmt : String → String)
    (url filename folder : String) (rm : Bool) (env : DlEnv) (w : World) :
    (rm = false → env.lockTimeout = true →
        (download_file fmt url filename folder rm env w).1
          = (false, some "File locked by another process"))
    ∧ (∀ body, env.fetch = FetchResult.resp 200 body →
        (rm = true ∨ (env.lockTimeout = false
            ∧ w.pathExists (filePathOf fmt url filename folder) = false)) →
        (download_file fmt url filename folder rm env w).1 = (true, none))
    ∧ (∀ status body, env.fetch = FetchResult.resp status body →
        status ≠ 200 →
        (rm = true ∨ (env.lockTimeout = false
            ∧ w.pathExists (filePathOf fmt url filename folder) = false)) →
        (download_file fmt url filename folder rm env w).1
          = (false, some ("HTTP " ++ toString status)))
    ∧ (∀ msg, env.fetch = FetchResult.exn msg →
        (rm = true ∨ (env.lockTimeout = false
            ∧ w.pathExists (filePathOf fmt url filename folder) = false)) →
        (download_file fmt url filename folder rm env w).1
          = (false, some msg)) := by
  refine ⟨?_, ?_, ?_, ?_⟩
  · intro hrm hT
    subst hrm
    unfold download_file
    simp only [Bool.false_eq_true, if_false, hT, if_true]
  · intro body hf hreach
    rw [download_file_fetch_path fmt url filename folder rm env w hreach, hf]
    simp [fetchOutcome]
  · intro status body hf hs hreach
    rw [download_file_fetch_path fmt url filename folder rm env w hreach, hf]
    simp [fetchOutcome, hs]
  · intro msg hf hreach
    rw [download_file_fetch_path fmt url filename folder rm env w hreach, hf]
    rfl

/-- C6 witness: the four outcomes at concrete inputs — a pre-held lock,
a 200 transfer, an HTTP 404, and a caught exception. -/
theorem c6_download_file_failure_taxonomy_witness :
    (download_file (fun s => s) "u" "f" "d" false
        (DlEnv.mk true (FetchResult.exn "x")) []).1
      = (false, some "File locked by another process")
    ∧ (download_file (fun s => s) "u" "f" "d" false
        (DlEnv.mk false (FetchResult.resp 200 [1])) []).1 = (true, none)
    ∧ (download_file (fun s => s) "u" "f" "d" false
        (DlEnv.mk false (FetchResult.resp 404 [])) []).1
      = (false, some ("HTTP " ++ toString 404))
    ∧ (download_file (fun s => s) "u" "f" "d" true
        (DlEnv.mk false (FetchResult.exn "boom")) []).1
      = (false, some "boom") :=
  ⟨(c6_download_file_failure_taxonomy (fun s => s) "u" "f" "d" false
      (DlEnv.mk true (FetchResult.exn "x")) []).1 rfl rfl,
   (c6_download_file_failure_taxonomy (fun s => s) "u" "f" "d" false
      (DlEnv.mk false (FetchResult.resp 200 [1])) []).2.1 [1] rfl
      (Or.inr ⟨rfl, rfl⟩),
   (c6_download_file_failure_taxonomy (fun s => s) "u" "f" "d" false
      (DlEnv.mk false (FetchResult.resp 404 [])) []).2.2.1 404 [] rfl
      (by decide) (Or.inr ⟨rfl, rfl⟩),
   (c6_download_file_failure_taxonomy (fun s => s) "u" "f" "d" true
      (DlEnv.mk false (FetchResult.exn "boom")) []).2.2.2 "boom" rfl
      (Or.inl rfl)⟩

/-! ### C8 — chunk-merge is not additive (code bug) -/

/-- C8: the chunk-merge loop of `process_excel_file` is not additive in
the per-chunk counts.  Merging the single chunk summary
`{doc: 2, pdf: 1, total: 3, successful: [3 entries], failed: []}` calls
`add_success` once per non-"total" *key* of the dict (`"doc"`, `"pdf"`,
`"successful"`, `"failed"`), ignoring the counts; since `get_summary`
reads the dotted keys `".doc"`/`".docx"`/`".pdf"`, the aggregate
summary is `{doc: 0, pdf: 0, total: 4}` instead of the claimed
`{doc: 2, pdf: 1, total: 3}`. -/
theorem c8_merge_ignores_per_chunk_counts :
    (merge_summaries DownloadStats.init
        [some { doc := 2, pdf := 1, total := 3,
                successful := [("u1", "f1"), ("u2", "f2"), ("u3", "f3")],
                failed := [] }]).get_summary
      = { doc := 0, pdf := 0, total := 4, successful := [], failed := [] } := by
  decide

/-! ### C9 — get_pending_urls returns failure entries, not urls
(code bug) -/

/-- C9: `get_pending_urls` iterates `self.progress["failed"]` and
returns the failure *entries* themselves, although its docstring and
the spec promise a list of url strings; `get_failed_urls` is the
accessor that maps the entries to their urls.  On a ledger with the
single failure entry `("u", "e", "t")`, the code returns that entry
record where the claim expects `["u"]`. -/
theorem c9_get_pending_urls_returns_entries :
    get_pending_urls { processed := [], failed := [⟨"u", "e", "t"⟩] }
      = [⟨"u", "e", "t"⟩]
    ∧ get_failed_urls { processed := [], failed := [⟨"u", "e", "t"⟩] }
      = ["u"] := by
  exact ⟨rfl, rfl⟩

/-! ### C7 — reconciler lemmas: the grouping dict -/

theorem upd_key (key : String) (du pu : List String → List String)
    (g : DocGroup) : (upd key du pu g).key = g.key := by
  unfold upd
  split <;> rfl

theorem addFile_eq (gs : List DocGroup) (e : FileEnt)
    (hrel : isRelevantName e.name = true) :
    addFile gs e
      = ((if containsKey gs (get_base_name e.name) then gs
          else gs ++ [{ key := get_base_name e.name, docs := [], pdfs := [] }]).map
            (upd (get_base_name e.name) (duOf e) (puOf e))) := by
  have hfun : (fun g : DocGroup =>
      if g.key == get_base_name e.name then
        match classOf e.name with
        | DocClass.doc => { g with docs := g.docs ++ [fullPath e] }
        | DocClass.pdf => { g with pdfs := g.pdfs ++ [fullPath e] }
        | DocClass.neither => g
      else g)
      = upd (get_base_name e.name) (duOf e) (puOf e) := by
    funext g
    unfold upd duOf puOf
    by_cases hk : g.key = get_base_name e.name
    · cases hc : classOf e.name <;> simp [hc, ← hk]
    · simp [hk]
  simp only [addFile, hrel, if_true, containsKey]
  rw [hfun]

theorem containsKey_cons (g : DocGroup) (t : List DocGroup) (k : String) :
    containsKey (g :: t) k = ((g.key == k) || containsKey t k) := by
  simp [containsKey]

theorem groupDocs_of_not_containsKey (gs : List DocGroup) (k : String)
    (h : containsKey gs k = false) : groupDocs gs k = [] := by
  induction gs with
  | nil => rfl
  | cons g t ih =>
      rw [containsKey_cons] at h
      have hg : (g.key == k) = false := by
        cases hgg : (g.key == k) <;> simp [hgg] at h ⊢
      have hk : g.key ≠ k := by simpa using hg
      have ht : containsKey t k = false := by
        cases htt : containsKey t k <;> simp [htt] at h ⊢
      simp [groupDocs, hk, ih ht]

theorem groupPdfs_of_not_containsKey (gs : List DocGroup) (k : String)
    (h : containsKey gs k = false) : groupPdfs gs k = [] := by
  induction gs with
  | nil => rfl
  | cons g t ih =>
      rw [containsKey_cons] at h
      have hg : (g.key == k) = false := by
        cases hgg : (g.key == k) <;> simp [hgg] at h ⊢
      have hk : g.key ≠ k := by simpa using hg
      have ht : containsKey t k = false := by
        cases htt : containsKey t k <;> simp [htt] at h ⊢
      simp [groupPdfs, hk, ih ht]

theorem groupDocs_append (l1 l2 : List DocGroup) (k : String) :
    groupDocs (l1 ++ l2) k
      = if containsKey l1 k then groupDocs l1 k else groupDocs l2 k := by
  induction l1 with
  | nil => simp [containsKey, groupDocs]
  | cons g t ih =>
      rw [List.cons_append]
      by_cases hk : g.key = k
      · simp [groupDocs, containsKey_cons, hk]
      · have hg : (g.key == k) = false := by simpa using hk
        simp [groupDocs, containsKey_cons, hk, hg, ih]

theorem groupPdfs_append (l1 l2 : List DocGroup) (k : String) :
    groupPdfs (l1 ++ l2) k
      = if containsKey l1 k then groupPdfs l1 k else groupPdfs l2 k := by
  induction l1 with
  | nil => simp [containsKey, groupPdfs]
  | cons g t ih =>
      rw [List.cons_append]
      by_cases hk : g.key = k
      · simp [groupPdfs, containsKey_cons, hk]
      · have hg : (g.key == k) = false := by simpa using hk
        simp [groupPdfs, containsKey_cons, hk, hg, ih]

theorem groupDocs_map_upd (key : String) (du pu : List String → List String)
    (k : String) (gs : List DocGroup) :
    groupDocs (gs.map (upd key du pu)) k
      = if containsKey gs k then
          (if k = key then du (groupDocs gs k) else groupDocs gs k)
        else [] := by
  induction gs with
  | nil => simp [groupDocs, containsKey]
  | cons g t ih =>
      rw [List.map_cons]
      by_cases hg : g.key = k
      · have hck : containsKey (g :: t) k = true := by
          simp [containsKey_cons, hg]
        by_cases hk : k = key
        · subst hk
          simp [groupDocs, upd, hg, hck]
        · have hgk : g.key ≠ key := fun hh => hk (hg.symm.trans hh)
          simp [groupDocs, upd, hg, hgk, hck, hk]
      · have hukey : (upd key du pu g).key = g.key := upd_key key du pu g
        have hck : containsKey (g :: t) k = containsKey t k := by
          have hgb : (g.key == k) = false := by simpa using hg
          simp [containsKey_cons, hgb]
        simp only [groupDocs, hukey, if_neg hg, ih, hck]

theorem groupPdfs_map_upd (key : String) (du pu : List String → List String)
    (k : String) (gs : List DocGroup) :
    groupPdfs (gs.map (upd key du pu)) k
      = if containsKey gs k then
          (if k = key then pu (groupPdfs gs k) else groupPdfs gs k)
        else [] := by
  induction gs with
  | nil => simp [groupPdfs, containsKey]
  | cons g t ih =>
      rw [List.map_cons]
      by_cases hg : g.key = k
      · have hck : containsKey (g :: t) k = true := by
          simp [containsKey_cons, hg]
        by_cases hk : k = key
        · subst hk
          simp [groupPdfs, upd, hg, hck]
        · have hgk : g.key ≠ key := fun hh => hk (hg.symm.trans hh)
          simp [groupPdfs, upd, hg, hgk, hck, hk]
      · have hukey : (upd key du pu g).key = g.key := upd_key key du pu g
        have hck : containsKey (g :: t) k = containsKey t k := by
          have hgb : (g.key == k) = false := by simpa using hg
          simp [containsKey_cons, hgb]
        simp only [groupPdfs, hukey, if_neg hg, ih, hck]

theorem addFile_groupDocs (gs : List DocGroup) (e : FileEnt) (k : String) :
    groupDocs (addFile gs e) k
      = groupDocs gs k ++ (if isDocAt k e then [fullPath e] else []) := by
  by_cases hrel : isRelevantName e.name = true
  · rw [addFile_eq gs e hrel]
    by_cases hck : containsKey gs (get_base_name e.name) = true
    · rw [if_pos hck, groupDocs_map_upd]
      by_cases hk : k = get_base_name e.name
      · subst hk
        rw [if_pos hck, if_pos rfl]
        cases hc : classOf e.name with
        | doc =>
            simp [duOf, hc, isDocAt, hrel]
        | pdf =>
            simp [duOf, hc, isDocAt, hrel]
        | neither =>
            simp [duOf, hc, isDocAt, hrel]
      · have hd : isDocAt k e = false := by
          simp [isDocAt]
          intro _ _
          exact fun hh => hk hh.symm
        by_cases hck2 : containsKey gs k = true
        · simp [hck2, hk, hd]
        · have h0 := groupDocs_of_not_containsKey gs k
            (by cases h : containsKey gs k; rfl; exact absurd h hck2)
          simp [hck2, h0, hd]
    · rw [if_neg hck, groupDocs_map_upd]
      have hckf : containsKey gs (get_base_name e.name) = false := by
        cases h : containsKey gs (get_base_name e.name)
        · rfl
        · exact absurd h hck
      have hck1 : containsKey
          (gs ++ [{ key := get_base_name e.name, docs := [], pdfs := [] }]) k
          = (containsKey gs k || (get_base_name e.name == k)) := by
        simp [containsKey]
      by_cases hk : k = get_base_name e.name
      · subst hk
        have h0 := groupDocs_of_not_containsKey gs _ hckf
        rw [hck1]
        rw [groupDocs_append]
        simp only [hckf, Bool.false_or, beq_self_eq_true, if_true, if_pos rfl]
        cases hc : classOf e.name with
        | doc => simp [duOf, hc, isDocAt, hrel, h0, groupDocs]
        | pdf => simp [duOf, hc, isDocAt, hrel, h0, groupDocs]
        | neither => simp [duOf, hc, isDocAt, hrel, h0, groupDocs]
      · have hd : isDocAt k e = false := by
          simp [isDocAt]
          intro _ _
          exact fun hh => hk hh.symm
        have hbk : (get_base_name e.name == k) = false := by
          simpa using fun hh => hk hh.symm
        rw [hck1, hbk, Bool.or_false, groupDocs_append]
        by_cases hck2 : containsKey gs k = true
        · simp [hck2, hk, hd]
        · have hckf2 : containsKey gs k = false := by
            cases h : containsKey gs k
            · rfl
            · exact absurd h hck2
          have h0 := groupDocs_of_not_containsKey gs k hckf2
          have hkn : get_base_name e.name ≠ k := fun hh => hk hh.symm
          simp [hckf2, h0, hd, groupDocs, hkn]
  · have hrelf : isRelevantName e.name = false := by
      cases h : isRelevantName e.name
      · rfl
      · exact absurd h hrel
    have hd : isDocAt k e = false := by simp [isDocAt, hrelf]
    simp [addFile, hrelf, hd]

theorem addFile_groupPdfs (gs : List DocGroup) (e : FileEnt) (k : String) :
    groupPdfs (addFile gs e) k
      = groupPdfs gs k ++ (if isPdfAt k e then [fullPath e] else []) := by
  by_cases hrel : isRelevantName e.name = true
  · rw [addFile_eq gs e hrel]
    by_cases hck : containsKey gs (get_base_name e.name) = true
    · rw [if_pos hck, groupPdfs_map_upd]
      by_cases hk : k = get_base_name e.name
      · subst hk
        rw [if_pos hck, if_pos rfl]
        cases hc : classOf e.name with
        | doc =>
            simp [puOf, hc, isPdfAt, hrel]
        | pdf =>
            simp [puOf, hc, isPdfAt, hrel]
        | neither =>
            simp [puOf, hc, isPdfAt, hrel]
      · have hd : isPdfAt k e = false := by
          simp [isPdfAt]
          intro _ _
          exact fun hh => hk hh.symm
        by_cases hck2 : containsKey gs k = true
        · simp [hck2, hk, hd]
        · have h0 := groupPdfs_of_not_containsKey gs k
            (by cases h : containsKey gs k; rfl; exact absurd h hck2)
          simp [hck2, h0, hd]
    · rw [if_neg hck, groupPdfs_map_upd]
      have hckf : containsKey gs (get_base_name e.name) = false := by
        cases h : containsKey gs (get_base_name e.name)
        · rfl
        · exact absurd h hck
      have hck1 : containsKey
          (gs ++ [{ key := get_base_name e.name, docs := [], pdfs := [] }]) k
          = (containsKey gs k || (get_base_name e.name == k)) := by
        simp [containsKey]
      by_cases hk : k = get_base_name e.name
      · subst hk
        have h0 := groupPdfs_of_not_containsKey gs _ hckf
        rw [hck1]
        rw [groupPdfs_append]
        simp only [hckf, Bool.false_or, beq_self_eq_true, if_true, if_pos rfl]
        cases hc : classOf e.name with
        | doc => simp [puOf, hc, isPdfAt, hrel, h0, groupPdfs]
        | pdf => simp [puOf, hc, isPdfAt, hrel, h0, groupPdfs]
        | neither => simp [puOf, hc, isPdfAt, hrel, h0, groupPdfs]
      · have hd : isPdfAt k e = false := by
          simp [isPdfAt]
          intro _ _
          exact fun hh => hk hh.symm
        have hbk : (get_base_name e.name == k) = false := by
          simpa using fun hh => hk hh.symm
        rw [hck1, hbk, Bool.or_false, groupPdfs_append]
        by_cases hck2 : containsKey gs k = true
        · simp [hck2, hk, hd]
        · have hckf2 : containsKey gs k = false := by
            cases h : containsKey gs k
            · rfl
            · exact absurd h hck2
          have h0 := groupPdfs_of_not_containsKey gs k hckf2
          have hkn : get_base_name e.name ≠ k := fun hh => hk hh.symm
          simp [hckf2, h0, hd, groupPdfs, hkn]
  · have hrelf : isRelevantName e.name = false := by
      cases h : isRelevantName e.name
      · rfl
      · exact absurd h hrel
    have hd : isPdfAt k e = false := by simp [isPdfAt, hrelf]
    simp [addFile, hrelf, hd]

theorem addFile_containsKey (gs : List DocGroup) (e : FileEnt) (k : String) :
    containsKey (addFile gs e) k
      = (containsKey gs k
          || (isRelevantName e.name && (get_base_name e.name == k))) := by
  by_cases hrel : isRelevantName e.name = true
  · rw [addFile_eq gs e hrel]
    have hmap : ∀ l : List DocGroup,
        containsKey (l.map (upd (get_base_name e.name) (duOf e) (puOf e))) k
          = containsKey l k := by
      intro l
      induction l with
      | nil => rfl
      | cons g t ih =>
          rw [List.map_cons, containsKey_cons, containsKey_cons, ih, upd_key]
    by_cases hck : containsKey gs (get_base_name e.name) = true
    · rw [if_pos hck, hmap]
      by_cases hk : get_base_name e.name = k
      · subst hk
        simp [hck, hrel]
      · have hbk : (get_base_name e.name == k) = false := by simpa using hk
        simp [hbk]
    · rw [if_neg hck, hmap]
      have hck1 : containsKey
          (gs ++ [{ key := get_base_name e.name, docs := [], pdfs := [] }]) k
          = (containsKey gs k || (get_base_name e.name == k)) := by
        simp [containsKey]
      rw [hck1]
      simp [hrel]
  · have hrelf : isRelevantName e.name = false := by
      cases h : isRelevantName e.name
      · rfl
      · exact absurd h hrel
    simp [addFile, hrelf]

theorem addFile_keysNodup (gs : List DocGroup) (e : FileEnt)
    (h : (gs.map DocGroup.key).Nodup) :
    ((addFile gs e).map DocGroup.key).Nodup := by
  by_cases hrel : isRelevantName e.name = true
  · rw [addFile_eq gs e hrel]
    have hmap : ∀ l : List DocGroup,
        (l.map (upd (get_base_name e.name) (duOf e) (puOf e))).map DocGroup.key
          = l.map DocGroup.key := by
      intro l
      rw [List.map_map]
      exact List.map_congr_left (fun g _ => upd_key _ _ _ g)
    by_cases hck : containsKey gs (get_base_name e.name) = true
    · rw [if_pos hck, hmap]
      exact h
    · rw [if_neg hck, hmap, List.map_append]
      rw [List.nodup_append]
      refine ⟨h, by simp, ?_⟩
      intro a ha hb
      have hb' : a = get_base_name e.name := by simpa using hb
      subst hb'
      simp only [List.mem_map] at ha
      obtain ⟨g, hg, hkey⟩ := ha
      have : containsKey gs (get_base_name e.name) = true := by
        unfold containsKey
        rw [List.any_eq_true]
        exact ⟨g, hg, by simp [hkey]⟩
      exact hck this
  · have hrelf : isRelevantName e.name = false := by
      cases hh : isRelevantName e.name
      · rfl
      · exact absurd hh hrel
    simpa [addFile, hrelf] using h

theorem docPathsOf_cons (e : FileEnt) (t : List FileEnt) (k : String) :
    docPathsOf (e :: t) k
      = (if isDocAt k e then [fullPath e] else []) ++ docPathsOf t k := by
  unfold docPathsOf
  rw [List.filter_cons]
  by_cases h : isDocAt k e = true <;> simp [h]

theorem pdfPathsOf_cons (e : FileEnt) (t : List FileEnt) (k : String) :
    pdfPathsOf (e :: t) k
      = (if isPdfAt k e then [fullPath e] else []) ++ pdfPathsOf t k := by
  unfold pdfPathsOf
  rw [List.filter_cons]
  by_cases h : isPdfAt k e = true <;> simp [h]

theorem foldl_addFile_groupDocs (tree : List FileEnt) :
    ∀ (gs : List DocGroup) (k : String),
    groupDocs (tree.foldl addFile gs) k = groupDocs gs k ++ docPathsOf tree k := by
  induction tree with
  | nil => intro gs k; simp [docPathsOf]
  | cons e t ih =>
      intro gs k
      rw [List.foldl_cons, ih, addFile_groupDocs, docPathsOf_cons,
        List.append_assoc]

theorem foldl_addFile_groupPdfs (tree : List FileEnt) :
    ∀ (gs : List DocGroup) (k : String),
    groupPdfs (tree.foldl addFile gs) k = groupPdfs gs k ++ pdfPathsOf tree k := by
  induction tree with
  | nil => intro gs k; simp [pdfPathsOf]
  | cons e t ih =>
      intro gs k
      rw [List.foldl_cons, ih, addFile_groupPdfs, pdfPathsOf_cons,
        List.append_assoc]

theorem foldl_addFile_containsKey (tree : List FileEnt) :
    ∀ (gs : List DocGroup) (k : String),
    containsKey (tree.foldl addFile gs) k
      = (containsKey gs k
          || tree.any (fun e =>
              isRelevantName e.name && (get_base_name e.name == k))) := by
  induction tree with
  | nil => intro gs k; simp
  | cons e t ih =>
      intro gs k
      rw [List.foldl_cons, ih, addFile_containsKey, List.any_cons,
        Bool.or_assoc]

theorem groups_groupDocs (tree : List FileEnt) (k : String) :
    groupDocs (get_document_groups tree) k = docPathsOf tree k := by
  unfold get_document_groups
  rw [foldl_addFile_groupDocs]
  rfl

theorem groups_groupPdfs (tree : List FileEnt) (k : String) :
    groupPdfs (get_document_groups tree) k = pdfPathsOf tree k := by
  unfold get_document_groups
  rw [foldl_addFile_groupPdfs]
  rfl

theorem groups_containsKey (tree : List FileEnt) (k : String) :
    containsKey (get_document_groups tree) k
      = tree.any (fun e =>
          isRelevantName e.name && (get_base_name e.name == k)) := by
  unfold get_document_groups
  rw [foldl_addFile_containsKey]
  rfl

theorem groups_keysNodup (tree : List FileEnt) :
    ((get_document_groups tree).map DocGroup.key).Nodup := by
  unfold get_document_groups
  have : ∀ gs : List DocGroup, (gs.map DocGroup.key).Nodup →
      ((tree.foldl addFile gs).map DocGroup.key).Nodup := by
    induction tree with
    | nil => intro gs h; exact h
    | cons e t ih =>
        intro gs h
        rw [List.foldl_cons]
        exact ih (addFile gs e) (addFile_keysNodup gs e h)
  exact this [] (by simp)

theorem mem_groups_docs (gs : List DocGroup)
    (hnd : (gs.map DocGroup.key).Nodup) (g : DocGroup) (hg : g ∈ gs) :
    groupDocs gs g.key = g.docs ∧ groupPdfs gs g.key = g.pdfs := by
  induction gs with
  | nil => cases hg
  | cons g0 t ih =>
      rw [List.map_cons, List.nodup_cons] at hnd
      rcases List.mem_cons.mp hg with rfl | hgt
      · simp [groupDocs, groupPdfs]
      · have hne : g0.key ≠ g.key := by
          intro hh
          exact hnd.1 (hh ▸ List.mem_map_of_mem DocGroup.key hgt)
        simp only [groupDocs, groupPdfs, if_neg hne]
        exact ih hnd.2 hgt

theorem containsKey_exists_mem (gs : List DocGroup) (k : String)
    (h : containsKey gs k = true) : ∃ g ∈ gs, g.key = k := by
  unfold containsKey at h
  rw [List.any_eq_true] at h
  obtain ⟨g, hg, hk⟩ := h
  exact ⟨g, hg, by simpa using hk⟩

theorem foldl_collect_pdfs (l : List DocGroup) :
    ∀ acc : List String,
    l.foldl (fun acc g =>
        if g.docs ≠ [] ∧ g.pdfs ≠ [] then acc ++ g.pdfs else acc) acc
      = acc ++ (l.filter (fun g =>
          decide (g.docs ≠ []) && decide (g.pdfs ≠ []))).flatMap DocGroup.pdfs := by
  induction l with
  | nil => intro acc; simp
  | cons g t ih =>
      intro acc
      rw [List.foldl_cons, List.filter_cons]
      by_cases h : g.docs ≠ [] ∧ g.pdfs ≠ []
      · have hb : (decide (g.docs ≠ []) && decide (g.pdfs ≠ [])) = true := by
          simp [h.1, h.2]
        rw [if_pos h, hb, if_pos rfl, ih, List.flatMap_cons, List.append_assoc]
      · have hb : (decide (g.docs ≠ []) && decide (g.pdfs ≠ [])) = false := by
          rcases not_and_or.mp h with h1 | h1 <;> simp [h1]
        rw [if_neg h, hb]
        simp only [Bool.false_eq_true, if_false]
        exact ih acc

theorem mem_removedPaths_groups (tree : List FileEnt) (path : String) :
    path ∈ removedPaths tree ↔
      ∃ g ∈ get_document_groups tree,
        g.docs ≠ [] ∧ g.pdfs ≠ [] ∧ path ∈ g.pdfs := by
  unfold removedPaths
  rw [foldl_collect_pdfs, List.nil_append]
  rw [List.mem_flatMap]
  constructor
  · rintro ⟨g, hg, hp⟩
    rw [List.mem_filter] at hg
    have hcond := hg.2
    rw [Bool.and_eq_true, decide_eq_true_eq, decide_eq_true_eq] at hcond
    exact ⟨g, hg.1, hcond.1, hcond.2, hp⟩
  · rintro ⟨g, hg, hd, hpn, hp⟩
    refine ⟨g, ?_, hp⟩
    rw [List.mem_filter]
    exact ⟨hg, by simp [hd, hpn]⟩

theorem isDocAt_iff (k : String) (e : FileEnt) :
    isDocAt k e = true ↔
      isRelevantName e.name = true ∧ classOf e.name = DocClass.doc
        ∧ get_base_name e.name = k := by
  unfold isDocAt
  simp [Bool.and_eq_true, and_assoc]

theorem isPdfAt_iff (k : String) (e : FileEnt) :
    isPdfAt k e = true ↔
      isRelevantName e.name = true ∧ classOf e.name = DocClass.pdf
        ∧ get_base_name e.name = k := by
  unfold isPdfAt
  simp [Bool.and_eq_true, and_assoc]

theorem hasDocSibling_iff (tree : List FileEnt) (e : FileEnt) :
    hasDocSibling tree e = true ↔
      ∃ d ∈ tree, isRelevantName d.name = true
        ∧ classOf d.name = DocClass.doc
        ∧ get_base_name d.name = get_base_name e.name := by
  unfold hasDocSibling
  simp [List.any_eq_true, Bool.and_eq_true, and_assoc]

theorem deleteB_iff (tree : List FileEnt) (e : FileEnt) :
    deleteB tree e = true ↔
      isRelevantName e.name = true ∧ classOf e.name = DocClass.pdf
        ∧ hasDocSibling tree e = true := by
  unfold deleteB
  simp [Bool.and_eq_true, and_assoc]

theorem mem_removedPaths_iff (tree : List FileEnt) (path : String) :
    path ∈ removedPaths tree ↔
      ∃ e ∈ tree, deleteB tree e = true ∧ fullPath e = path := by
  rw [mem_removedPaths_groups]
  constructor
  · rintro ⟨g, hgmem, hd, _hpn, hpin⟩
    have hdocs := (mem_groups_docs _ (groups_keysNodup tree) g hgmem).1
    have hpdfs := (mem_groups_docs _ (groups_keysNodup tree) g hgmem).2
    rw [groups_groupDocs] at hdocs
    rw [groups_groupPdfs] at hpdfs
    rw [← hpdfs] at hpin
    unfold pdfPathsOf at hpin
    rw [List.mem_map] at hpin
    obtain ⟨e, hef, hep⟩ := hpin
    rw [List.mem_filter] at hef
    obtain ⟨he, hPdfAt⟩ := hef
    rw [isPdfAt_iff] at hPdfAt
    have hdne : docPathsOf tree g.key ≠ [] := by rw [hdocs]; exact hd
    have hfne : List.filter (isDocAt g.key) tree ≠ [] := by
      intro hh
      apply hdne
      unfold docPathsOf
      rw [hh]
      rfl
    obtain ⟨d, hdmem0⟩ := List.exists_mem_of_ne_nil _ hfne
    rw [List.mem_filter] at hdmem0
    obtain ⟨hdmem, hDocAt⟩ := hdmem0
    rw [isDocAt_iff] at hDocAt
    refine ⟨e, he, ?_, hep⟩
    rw [deleteB_iff]
    refine ⟨hPdfAt.1, hPdfAt.2.1, ?_⟩
    rw [hasDocSibling_iff]
    exact ⟨d, hdmem, hDocAt.1, hDocAt.2.1, by rw [hDocAt.2.2, hPdfAt.2.2]⟩
  · rintro ⟨e, he, hdel, rfl⟩
    rw [deleteB_iff] at hdel
    obtain ⟨hrel, hpdf, hsib⟩ := hdel
    rw [hasDocSibling_iff] at hsib
    obtain ⟨d, hdmem, hdrel, hddoc, hdbase⟩ := hsib
    have hck : containsKey (get_document_groups tree)
        (get_base_name e.name) = true := by
      rw [groups_containsKey, List.any_eq_true]
      exact ⟨e, he, by simp [hrel]⟩
    obtain ⟨g, hgmem, hgkey⟩ := containsKey_exists_mem _ _ hck
    have hdocs := (mem_groups_docs _ (groups_keysNodup tree) g hgmem).1
    have hpdfs := (mem_groups_docs _ (groups_keysNodup tree) g hgmem).2
    rw [groups_groupDocs, hgkey] at hdocs
    rw [groups_groupPdfs, hgkey] at hpdfs
    have hein : fullPath e ∈ g.pdfs := by
      rw [← hpdfs]
      unfold pdfPathsOf
      rw [List.mem_map]
      refine ⟨e, ?_, rfl⟩
      rw [List.mem_filter]
      exact ⟨he, (isPdfAt_iff _ _).mpr ⟨hrel, hpdf, rfl⟩⟩
    have hdin : fullPath d ∈ g.docs := by
      rw [← hdocs]
      unfold docPathsOf
      rw [List.mem_map]
      refine ⟨d, ?_, rfl⟩
      rw [List.mem_filter]
      exact ⟨hdmem, (isDocAt_iff _ _).mpr ⟨hdrel, hddoc, hdbase⟩⟩
    refine ⟨g, hgmem, ?_, ?_, hein⟩
    · intro hh
      rw [hh] at hdin
      cases hdin
    · intro hh
      rw [hh] at hein
      cases hein

theorem sum_map_add_nat {α : Type} (l : List α) (g h : α → Nat) :
    (l.map (fun x => g x + h x)).sum = (l.map g).sum + (l.map h).sum := by
  induction l with
  | nil => rfl
  | cons a t ih =>
      simp only [List.map_cons, List.sum_cons, ih]
      omega

theorem sum_indicator (keys : List String) (hk : keys.Nodup) (k0 : String)
    (v : Nat) :
    (keys.map (fun k => if k0 = k then v else 0)).sum
      = if k0 ∈ keys then v else 0 := by
  induction keys with
  | nil => simp
  | cons a t ih =>
      rw [List.nodup_cons] at hk
      by_cases h : k0 = a
      · subst h
        rw [List.map_cons, List.sum_cons, if_pos rfl, ih hk.2]
        simp [hk.1]
      · rw [List.map_cons, List.sum_cons, if_neg h, ih hk.2]
        simp [List.mem_cons, h]

theorem sum_fibers (keys : List String) (tree : List FileEnt)
    (p : FileEnt → Bool) (F : FileEnt → Nat) (hk : keys.Nodup)
    (hcov : ∀ e ∈ tree, p e = true → get_base_name e.name ∈ keys) :
    (keys.map (fun k =>
        ((tree.filter (fun e =>
            p e && (get_base_name e.name == k))).map F).sum)).sum
      = ((tree.filter p).map F).sum := by
  induction tree with
  | nil => simp
  | cons e t ih =>
      have hcov' : ∀ x ∈ t, p x = true → get_base_name x.name ∈ keys :=
        fun x hx => hcov x (List.mem_cons_of_mem e hx)
      by_cases hp : p e = true
      · have hmem := hcov e (List.mem_cons_self e t) hp
        have hsplit : ∀ k : String,
            ((List.filter (fun x =>
                p x && (get_base_name x.name == k)) (e :: t)).map F).sum
              = (if get_base_name e.name = k then F e else 0)
                + ((List.filter (fun x =>
                    p x && (get_base_name x.name == k)) t).map F).sum := by
          intro k
          rw [List.filter_cons]
          by_cases hbk : get_base_name e.name = k
          · have hc : (p e && (get_base_name e.name == k)) = true := by
              simp [hp, hbk]
            rw [hc, if_pos rfl, if_pos hbk, List.map_cons, List.sum_cons]
          · have hc : (p e && (get_base_name e.name == k)) = false := by
              simp [hp, hbk]
            rw [hc]
            simp [hbk]
        rw [List.map_congr_left (fun k _ => hsplit k), sum_map_add_nat,
          sum_indicator keys hk _ (F e), if_pos hmem, ih hcov']
        rw [List.filter_cons, if_pos (by simpa using hp), List.map_cons,
          List.sum_cons]
      · have hpf : p e = false := by
          cases hq : p e
          · rfl
          · exact absurd hq hp
        have hsame : ∀ k : String,
            List.filter (fun x =>
                p x && (get_base_name x.name == k)) (e :: t)
              = List.filter (fun x =>
                  p x && (get_base_name x.name == k)) t := by
          intro k
          rw [List.filter_cons]
          simp [hpf]
        have hmap : (keys.map (fun k =>
            ((List.filter (fun x =>
                p x && (get_base_name x.name == k)) (e :: t)).map F).sum))
              = (keys.map (fun k =>
                ((List.filter (fun x =>
                    p x && (get_base_name x.name == k)) t).map F).sum)) :=
          List.map_congr_left (fun k _ => by rw [hsame k])
        rw [hmap, ih hcov', List.filter_cons]
        simp [hpf]

theorem sum_map_flatMap_pdfs (l : List DocGroup) (f : String → Nat) :
    ((l.flatMap DocGroup.pdfs).map f).sum
      = (l.map (fun g => (g.pdfs.map f).sum)).sum := by
  induction l with
  | nil => rfl
  | cons g t ih =>
      simp [List.flatMap_cons, ih]

theorem sum_filter_if (l : List DocGroup) (q : DocGroup → Bool)
    (F : DocGroup → Nat) :
    ((l.filter q).map F).sum
      = (l.map (fun g => if q g then F g else 0)).sum := by
  induction l with
  | nil => rfl
  | cons g t ih =>
      rw [List.filter_cons]
      by_cases h : q g = true
      · simp [h, ih]
      · simp [h, ih]

theorem group_term_eq (tree : List FileEnt) (f : String → Nat) (g : DocGroup)
    (hgmem : g ∈ get_document_groups tree) :
    (if decide (g.docs ≠ []) && decide (g.pdfs ≠ [])
      then (g.pdfs.map f).sum else 0)
      = ((tree.filter (fun e =>
          deleteB tree e && (get_base_name e.name == g.key))).map
            (fun e => f (fullPath e))).sum := by
  have hdocs := (mem_groups_docs _ (groups_keysNodup tree) g hgmem).1
  have hpdfs := (mem_groups_docs _ (groups_keysNodup tree) g hgmem).2
  rw [groups_groupDocs] at hdocs
  rw [groups_groupPdfs] at hpdfs
  by_cases hmix : g.docs ≠ [] ∧ g.pdfs ≠ []
  · have hb : (decide (g.docs ≠ []) && decide (g.pdfs ≠ [])) = true := by
      simp [hmix.1, hmix.2]
    simp only [hb, if_true]
    have hdne : List.filter (isDocAt g.key) tree ≠ [] := by
      intro hh
      apply hmix.1
      rw [← hdocs]
      unfold docPathsOf
      rw [hh]
      rfl
    obtain ⟨d, hdmem0⟩ := List.exists_mem_of_ne_nil _ hdne
    rw [List.mem_filter] at hdmem0
    have hfeq : List.filter (fun e =>
        deleteB tree e && (get_base_name e.name == g.key)) tree
        = List.filter (isPdfAt g.key) tree := by
      apply List.filter_congr
      intro e he
      by_cases hpe : isPdfAt g.key e = true
      · rw [hpe]
        obtain ⟨hrel, hpdf, hbase⟩ := (isPdfAt_iff _ _).mp hpe
        have hdel : deleteB tree e = true := by
          rw [deleteB_iff]
          refine ⟨hrel, hpdf, ?_⟩
          rw [hasDocSibling_iff]
          obtain ⟨hdm, hda⟩ := hdmem0
          obtain ⟨hdr, hdc, hdb⟩ := (isDocAt_iff _ _).mp hda
          exact ⟨d, hdm, hdr, hdc, by rw [hdb, hbase]⟩
        simp [hdel, hbase]
      · have hpe' : isPdfAt g.key e = false := by
          cases hq : isPdfAt g.key e
          · rfl
          · exact absurd hq hpe
        rw [hpe']
        cases hq : (deleteB tree e && (get_base_name e.name == g.key))
        · rfl
        · exfalso
          rw [Bool.and_eq_true] at hq
          obtain ⟨hdel, hbk⟩ := hq
          obtain ⟨hrel, hpdf, _⟩ := (deleteB_iff _ _).mp hdel
          apply hpe
          rw [isPdfAt_iff]
          exact ⟨hrel, hpdf, by simpa using hbk⟩
    rw [hfeq, ← hpdfs]
    unfold pdfPathsOf
    rw [List.map_map]
    rfl
  · have hb : (decide (g.docs ≠ []) && decide (g.pdfs ≠ [])) = false := by
      rcases not_and_or.mp hmix with h1 | h1 <;> simp [h1]
    simp only [hb, Bool.false_eq_true, if_false]
    have hnil : List.filter (fun e =>
        deleteB tree e && (get_base_name e.name == g.key)) tree = [] := by
      rw [List.filter_eq_nil_iff]
      intro e he hcond
      rw [Bool.and_eq_true] at hcond
      obtain ⟨hdel, hbk⟩ := hcond
      obtain ⟨hrel, hpdf, hsib⟩ := (deleteB_iff _ _).mp hdel
      have hbase : get_base_name e.name = g.key := by simpa using hbk
      have hpne : g.pdfs ≠ [] := by
        rw [← hpdfs]
        unfold pdfPathsOf
        intro hh
        have hmm : fullPath e
            ∈ List.map fullPath (List.filter (isPdfAt g.key) tree) :=
          List.mem_map_of_mem _ (List.mem_filter.mpr
            ⟨he, (isPdfAt_iff _ _).mpr ⟨hrel, hpdf, hbase⟩⟩)
        rw [hh] at hmm
        cases hmm
      rw [hasDocSibling_iff] at hsib
      obtain ⟨d, hdm, hdr, hdc, hdb⟩ := hsib
      have hdne2 : g.docs ≠ [] := by
        rw [← hdocs]
        unfold docPathsOf
        intro hh
        have hmm : fullPath d
            ∈ List.map fullPath (List.filter (isDocAt g.key) tree) :=
          List.mem_map_of_mem _ (List.mem_filter.mpr
            ⟨hdm, (isDocAt_iff _ _).mpr ⟨hdr, hdc, by rw [hdb, hbase]⟩⟩)
        rw [hh] at hmm
        cases hmm
      exact hmix ⟨hdne2, hpne⟩
    rw [hnil]
    rfl

theorem removed_sum (tree : List FileEnt) (f : String → Nat) :
    ((removedPaths tree).map f).sum
      = ((tree.filter (fun e => deleteB tree e)).map
          (fun e => f (fullPath e))).sum := by
  unfold removedPaths
  rw [foldl_collect_pdfs, List.nil_append, sum_map_flatMap_pdfs,
    sum_filter_if]
  rw [List.map_congr_left (fun g hg => group_term_eq tree f g hg)]
  have hmm : (get_document_groups tree).map (fun g =>
      ((tree.filter (fun e =>
          deleteB tree e && (get_base_name e.name == g.key))).map
        (fun e => f (fullPath e))).sum)
      = ((get_document_groups tree).map DocGroup.key).map (fun k =>
          ((tree.filter (fun e =>
              deleteB tree e && (get_base_name e.name == k))).map
            (fun e => f (fullPath e))).sum) := by
    rw [List.map_map]
    rfl
  rw [hmm]
  apply sum_fibers _ tree _ _ (groups_keysNodup tree)
  intro e he hdel
  obtain ⟨hrel, _, _⟩ := (deleteB_iff _ _).mp hdel
  have hck : containsKey (get_document_groups tree)
      (get_base_name e.name) = true := by
    rw [groups_containsKey, List.any_eq_true]
    exact ⟨e, he, by rw [hrel, Bool.true_and, beq_self_eq_true]⟩
  obtain ⟨g, hgmem, hgkey⟩ := containsKey_exists_mem _ _ hck
  rw [← hgkey]
  exact List.mem_map_of_mem DocGroup.key hgmem

theorem length_eq_sum_map_one {α : Type} (l : List α) :
    l.length = (l.map (fun _ => (1 : Nat))).sum := by
  induction l with
  | nil => rfl
  | cons a t ih =>
      rw [List.length_cons, List.map_cons, List.sum_cons, ih]
      omega

theorem sizeOfPath_fullPath (tree : List FileEnt)
    (hnd : (tree.map fullPath).Nodup) (e : FileEnt) (he : e ∈ tree) :
    sizeOfPath tree (fullPath e) = e.size := by
  unfold sizeOfPath
  have hsome : (tree.find? (fun x => fullPath x == fullPath e)).isSome := by
    rw [List.find?_isSome]
    exact ⟨e, he, by simp⟩
  obtain ⟨x, hx⟩ := Option.isSome_iff_exists.mp hsome
  rw [hx]
  have hpx : fullPath x = fullPath e := by simpa using List.find?_some hx
  have hxmem := List.mem_of_find?_eq_some hx
  rw [List.inj_on_of_nodup_map hnd hxmem he hpx]

/-- C7: on a tree of distinct full paths, `remove_duplicate_documents`
deletes exactly the pdf variants whose base key — filename stripped of
its extension and a trailing six-digit identifier with optional
underscore — also carries a doc/docx variant; pdf variants without a
doc sibling, and all non-pdf files, are left in place; the returned
pair is the count of removed files and the sum of their sizes. -/
theorem c7_remove_duplicate_documents_policy (tree : List FileEnt)
    (hnd : (tree.map fullPath).Nodup) :
    (∀ e ∈ tree, isRelevantName e.name = true →
        classOf e.name = DocClass.pdf → hasDocSibling tree e = true →
        e ∉ (remove_duplicate_documents tree).2.2)
    ∧ (∀ e ∈ tree, hasDocSibling tree e = false →
        e ∈ (remove_duplicate_documents tree).2.2)
    ∧ (∀ e ∈ tree, classOf e.name ≠ DocClass.pdf →
        e ∈ (remove_duplicate_documents tree).2.2)
    ∧ (remove_duplicate_documents tree).1
        = (tree.filter (fun e => deleteB tree e)).length
    ∧ (remove_duplicate_documents tree).2.1
        = ((tree.filter (fun e => deleteB tree e)).map
            (fun e => e.size)).sum := by
  have hds : remove_duplicate_documents tree
      = ((removedPaths tree).length,
         ((removedPaths tree).map (sizeOfPath tree)).sum,
         tree.filter (fun e =>
           !((removedPaths tree).contains (fullPath e)))) := rfl
  refine ⟨?_, ?_, ?_, ?_, ?_⟩
  · intro e he hrel hpdf hsib hmem
    rw [hds] at hmem
    rw [List.mem_filter] at hmem
    have hni := hmem.2
    rw [Bool.not_eq_true'] at hni
    have hin : fullPath e ∈ removedPaths tree :=
      (mem_removedPaths_iff tree _).mpr
        ⟨e, he, (deleteB_iff _ _).mpr ⟨hrel, hpdf, hsib⟩, rfl⟩
    have hc : (removedPaths tree).contains (fullPath e) = true :=
      List.elem_iff.mpr hin
    rw [hni] at hc
    exact absurd hc (by decide)
  · intro e he hsibf
    rw [hds, List.mem_filter]
    refine ⟨he, ?_⟩
    rw [Bool.not_eq_true']
    cases hc : (removedPaths tree).contains (fullPath e)
    · rfl
    · exfalso
      have hin : fullPath e ∈ removedPaths tree := List.elem_iff.mp hc
      obtain ⟨e2, he2, hdel2, hfp2⟩ := (mem_removedPaths_iff tree _).mp hin
      have heq := List.inj_on_of_nodup_map hnd he2 he hfp2
      subst heq
      obtain ⟨_, _, hsib2⟩ := (deleteB_iff _ _).mp hdel2
      rw [hsibf] at hsib2
      exact absurd hsib2 (by decide)
  · intro e he hnpdf
    rw [hds, List.mem_filter]
    refine ⟨he, ?_⟩
    rw [Bool.not_eq_true']
    cases hc : (removedPaths tree).contains (fullPath e)
    · rfl
    · exfalso
      have hin : fullPath e ∈ removedPaths tree := List.elem_iff.mp hc
      obtain ⟨e2, he2, hdel2, hfp2⟩ := (mem_removedPaths_iff tree _).mp hin
      have heq := List.inj_on_of_nodup_map hnd he2 he hfp2
      subst heq
      obtain ⟨_, hpdf2, _⟩ := (deleteB_iff _ _).mp hdel2
      exact hnpdf hpdf2
  · calc (remove_duplicate_documents tree).1
        = ((removedPaths tree).map (fun _ => (1 : Nat))).sum :=
          length_eq_sum_map_one _
      _ = ((tree.filter (fun e => deleteB tree e)).map
            (fun _ => (1 : Nat))).sum := removed_sum tree (fun _ => 1)
      _ = (tree.filter (fun e => deleteB tree e)).length :=
          (length_eq_sum_map_one _).symm
  · calc (remove_duplicate_documents tree).2.1
        = ((removedPaths tree).map (sizeOfPath tree)).sum := rfl
      _ = ((tree.filter (fun e => deleteB tree e)).map
            (fun e => sizeOfPath tree (fullPath e))).sum :=
          removed_sum tree (sizeOfPath tree)
      _ = ((tree.filter (fun e => deleteB tree e)).map
            (fun e => e.size)).sum :=
          congrArg List.sum (List.map_congr_left (fun e hef =>
            sizeOfPath_fullPath tree hnd e (List.mem_of_mem_filter hef)))

/-- C7 witness: on the spec's own scenario — `doc_a_000123.docx` and
`doc_a_000123.pdf` in one folder plus a lone `lone_000999.pdf` — the
pdf sibling of the docx is removed, the lone pdf is retained, and count
and bytes-freed follow the deleted pdf. -/
theorem c7_remove_duplicate_documents_policy_witness :
    ((sampleTree.map fullPath).Nodup)
    ∧ ({ dir := "downloads", name := "doc_a_000123.pdf", size := 7 }
        : FileEnt) ∉ (remove_duplicate_documents sampleTree).2.2
    ∧ ({ dir := "downloads", name := "lone_000999.pdf", size := 5 }
        : FileEnt) ∈ (remove_duplicate_documents sampleTree).2.2
    ∧ (remove_duplicate_documents sampleTree).1
        = (sampleTree.filter (fun e => deleteB sampleTree e)).length
    ∧ (remove_duplicate_documents sampleTree).2.1
        = ((sampleTree.filter (fun e => deleteB sampleTree e)).map
            (fun e => e.size)).sum :=
  ⟨by decide,
   (c7_remove_duplicate_documents_policy sampleTree (by decide)).1
     { dir := "downloads", name := "doc_a_000123.pdf", size := 7 }
     (by decide) (by decide) (by decide) (by decide),
   (c7_remove_duplicate_documents_policy sampleTree (by decide)).2.1
     { dir := "downloads", name := "lone_000999.pdf", size := 5 }
     (by decide) (by decide),
   (c7_remove_duplicate_documents_policy sampleTree (by decide)).2.2.2.1,
   (c7_remove_duplicate_documents_policy sampleTree (by decide)).2.2.2.2⟩

end CrawlLaw
